import Mathlib

/-!
Verification of a halo2 circuit for the three-term multiplicative recurrence
`seq[i] = (seq[i-1] + seq[i-3]) * seq[i-2]` (a generalized Fibonacci variant).

The synthesis pass of the circuit is embedded shallowly as a function that
records the sequence of layout actions it performs: selector activations,
advice-cell assignments, equality (copy) constraints, and the public-instance
binding.  Witness values are halo2 `Value`s: either a known field element or
the unknown placeholder used during key generation.
-/

set_option autoImplicit false

namespace FiboVariant

/-- The four advice columns `a`, `b`, `c`, `d` of `FiboConfig`. -/
inductive Col : Type
  | a
  | b
  | c
  | d
deriving DecidableEq

/-- A cell position: the region that assigned it, the advice column, and the
row offset inside that region.  Every region of this circuit is one row tall,
so the offset is always `0`. -/
structure Cell : Type where
  region : Nat
  col : Col
  row : Nat
deriving DecidableEq

/-- halo2 `Value<F>`: a witness value that is either unknown (shape-only
synthesis for key generation) or a known field element. -/
abbrev Value (F : Type) : Type := Option F

/-- `Value::known`. -/
def Value.known {F : Type} (x : F) : Value F := some x

/-- `Value::unknown`. -/
def Value.unknown {F : Type} : Value F := none

/-- Addition of `Value`s: an unknown operand makes the result unknown. -/
def Value.add {F : Type} [Add F] (x y : Value F) : Value F :=
  Option.map₂ (fun u v => u + v) x y

/-- Multiplication of `Value`s: an unknown operand makes the result unknown. -/
def Value.mul {F : Type} [Mul F] (x y : Value F) : Value F :=
  Option.map₂ (fun u v => u * v) x y

/-- One layout action recorded during synthesis. -/
inductive Ev (F : Type) : Type
  | enableSel (region row : Nat)
  | assign (cell : Cell) (val : Value F)
  | copyBind (src tgt : Cell)
  | instanceBind (cell : Cell) (slot : Nat)
deriving DecidableEq

/-- The witness-erased form of a layout action: what the action does, with the
assigned value forgotten.  Two synthesis runs have the same layout exactly when
their traces have the same image under `Ev.shape`. -/
inductive EvShape : Type
  | enableSel (region row : Nat)
  | assign (cell : Cell)
  | copyBind (src tgt : Cell)
  | instanceBind (cell : Cell) (slot : Nat)
deriving DecidableEq

/-- Erase the witness value carried by a layout action. -/
def Ev.shape {F : Type} : Ev F → EvShape
  | Ev.enableSel r w => EvShape.enableSel r w
  | Ev.assign c _ => EvShape.assign c
  | Ev.copyBind s t => EvShape.copyBind s t
  | Ev.instanceBind c s => EvShape.instanceBind c s

/-- `Number<F>`: a handle to an assigned cell, carrying its position and its
(witness) value, as halo2's `AssignedCell` does. -/
structure Number (F : Type) : Type where
  cell : Cell
  val : Value F
deriving DecidableEq

/-- `FiboChip::load_first_row`: inside a fresh region (index `reg`), enable the
selector at row 0, assign the three seed witnesses into columns `a`, `b`, `c`,
compute `d = (a + c) * b` and assign it into column `d`.  Returns the recorded
actions and the four cell handles. -/
def load_first_row {F : Type} [Add F] [Mul F] (reg : Nat) (a b c : Value F) :
    List (Ev F) × (Number F × Number F × Number F × Number F) :=
  let d : Value F := Value.mul (Value.add a c) b
  ([Ev.enableSel reg 0,
    Ev.assign ⟨reg, Col.a, 0⟩ a,
    Ev.assign ⟨reg, Col.b, 0⟩ b,
    Ev.assign ⟨reg, Col.c, 0⟩ c,
    Ev.assign ⟨reg, Col.d, 0⟩ d],
   (⟨⟨reg, Col.a, 0⟩, a⟩, ⟨⟨reg, Col.b, 0⟩, b⟩, ⟨⟨reg, Col.c, 0⟩, c⟩,
    ⟨⟨reg, Col.d, 0⟩, d⟩))

/-- `FiboChip::load_row`: inside a fresh region (index `reg`), enable the
selector at row 0, copy the three input handles into columns `a`, `b`, `c`
(`copy_advice` assigns the source's value and records an equality constraint),
compute `d = b * (a + c)` from the input values and assign it into column `d`.
Returns the recorded actions and the handle of the new `d` cell. -/
def load_row {F : Type} [Add F] [Mul F] (reg : Nat) (a b c : Number F) :
    List (Ev F) × Number F :=
  let d : Value F := Value.mul b.val (Value.add a.val c.val)
  ([Ev.enableSel reg 0,
    Ev.assign ⟨reg, Col.a, 0⟩ a.val,
    Ev.copyBind a.cell ⟨reg, Col.a, 0⟩,
    Ev.assign ⟨reg, Col.b, 0⟩ b.val,
    Ev.copyBind b.cell ⟨reg, Col.b, 0⟩,
    Ev.assign ⟨reg, Col.c, 0⟩ c.val,
    Ev.copyBind c.cell ⟨reg, Col.c, 0⟩,
    Ev.assign ⟨reg, Col.d, 0⟩ d],
   ⟨⟨reg, Col.d, 0⟩, d⟩)

/-- The loop of `FiboCircuit::synthesize`: `k` iterations of
`new_d ← load_row(b, c, d); b ← c; c ← d; d ← new_d`, allocating region
indices `reg, reg+1, ...`.  Returns the recorded actions and the final `d`
handle. -/
def synthLoop {F : Type} [Add F] [Mul F] :
    Nat → Nat → Number F → Number F → Number F → List (Ev F) × Number F
  | 0, _, _, _, d => ([], d)
  | k + 1, reg, b, c, d =>
    let step := load_row reg b c d
    let rest := synthLoop k (reg + 1) c d step.2
    (step.1 ++ rest.1, rest.2)

/-- `FiboCircuit::synthesize` for seeds `a b c` and length `num`: one
`load_first_row` (region 0), then one `load_row` per step index in the Rust
range `4..num` (i.e. `num - 4` iterations, regions `1, 2, ...`), and finally
`expose_public` of the last `d` handle at instance slot 0.  Returns the
recorded actions and the handle passed to `expose_public`. -/
def synthFull {F : Type} [Add F] [Mul F] (a b c : Value F) (num : Nat) :
    List (Ev F) × Number F :=
  let fr := load_first_row 0 a b c
  let lp := synthLoop (num - 4) 1 fr.2.2.1 fr.2.2.2.1 fr.2.2.2.2
  (fr.1 ++ lp.1 ++ [Ev.instanceBind lp.2.cell 0], lp.2)

/-- The trace of layout actions performed by `FiboCircuit::synthesize`. -/
def synthesize {F : Type} [Add F] [Mul F] (a b c : Value F) (num : Nat) :
    List (Ev F) :=
  (synthFull a b c num).1

/-- The `Number` handle that `FiboCircuit::synthesize` passes to
`expose_public` (the final `d`). -/
def exposedNumber {F : Type} [Add F] [Mul F] (a b c : Value F) (num : Nat) :
    Number F :=
  (synthFull a b c num).2

/-- The circuit struct `FiboCircuit { a, b, c, num }`. -/
structure FiboCircuit (F : Type) : Type where
  a : Value F
  b : Value F
  c : Value F
  num : Nat
deriving DecidableEq

/-- `Circuit::without_witnesses` as implemented: `Self::default()`.  The
derived `Default` gives unknown values for `a`, `b`, `c` and `0` for `num`. -/
def FiboCircuit.without_witnesses {F : Type} (_self : FiboCircuit F) :
    FiboCircuit F :=
  ⟨Value.unknown, Value.unknown, Value.unknown, 0⟩

/-- The synthesis trace of a circuit instance. -/
def FiboCircuit.synthesize {F : Type} [Add F] [Mul F] (self : FiboCircuit F) :
    List (Ev F) :=
  FiboVariant.synthesize self.a self.b self.c self.num

/-- The single gate declared by `FiboChip::configure`:
`s * ((a + c) * b - d)`, which must vanish wherever the selector is active. -/
def gateExpr {F : Type} [Ring F] (s a b c d : F) : F :=
  s * ((a + c) * b - d)

/-! ### Trace observers -/

/-- Recognize a selector activation. -/
def isEnableEv {F : Type} : Ev F → Bool
  | Ev.enableSel _ _ => true
  | _ => false

/-- Recognize an equality (copy) constraint. -/
def isCopyEv {F : Type} : Ev F → Bool
  | Ev.copyBind _ _ => true
  | _ => false

/-- Recognize a public-instance binding. -/
def isInstanceEv {F : Type} : Ev F → Bool
  | Ev.instanceBind _ _ => true
  | _ => false

/-- Number of regions in a trace: each region of this circuit activates the
selector exactly once, so regions and selector activations are in bijection. -/
def numRegions {F : Type} (t : List (Ev F)) : Nat :=
  t.countP isEnableEv

/-- The value assigned to a cell by a trace (first assignment; every cell of
this circuit is assigned at most once). -/
def assignedVal {F : Type} (t : List (Ev F)) (cl : Cell) : Option (Value F) :=
  match t with
  | [] => none
  | Ev.assign c v :: rest => if c = cl then some v else assignedVal rest cl
  | _ :: rest => assignedVal rest cl

/-- The equality constraints recorded in a trace, as ordered pairs. -/
def copyPairs {F : Type} (t : List (Ev F)) : List (Cell × Cell) :=
  t.filterMap fun e =>
    match e with
    | Ev.copyBind s tg => some (s, tg)
    | _ => none

/-- Two cells are equality-bound by a trace when they are connected by a chain
of recorded copy constraints (the reflexive-transitive-symmetric closure, i.e.
membership in the same cycle of the permutation argument). -/
def EqBound {F : Type} (t : List (Ev F)) (x y : Cell) : Prop :=
  Relation.ReflTransGen
    (fun u v => (u, v) ∈ copyPairs t ∨ (v, u) ∈ copyPairs t) x y

/-! ### The reference sequence (spec side)

The specification's reference sequence over a field:
`seq[0]=a, seq[1]=b, seq[2]=c`, and `seq[i] = (seq[i-1] + seq[i-3]) * seq[i-2]`
for `i ≥ 3`. -/

/-- The reference recurrence over a ring, exactly as the specification states
it. -/
def seqF {F : Type} [Add F] [Mul F] (a b c : F) : Nat → F
  | 0 => a
  | 1 => b
  | 2 => c
  | i + 3 => (seqF a b c (i + 2) + seqF a b c i) * seqF a b c (i + 1)

/-! ### The Rust reference computation `get_fibovar_seq` over `u64` -/

/-- The `u64` modulus. -/
def M : Nat := 2 ^ 64

/-- Store into a vector at an index: `seq[i] = v` in Rust, which panics when
the index is out of bounds (modelled by `none`). -/
def setAt (s : List Nat) (i v : Nat) : Option (List Nat) :=
  if i < s.length then some (s.set i v) else none

/-- One loop body of `get_fibovar_seq`:
`seq[i] = (seq[i - 1] + seq[i - 3]) * seq[i - 2]` with `u64` (wrapping)
arithmetic; reads and the write panic (`none`) when out of bounds. -/
def stepWrite (s : List Nat) (i : Nat) : Option (List Nat) := do
  let x ← s[i - 1]?
  let y ← s[i - 3]?
  let z ← s[i - 2]?
  setAt s i ((x + y) % M * z % M)

/-- The loop `for i in 3..num` of `get_fibovar_seq`, with `k` iterations left
and current index `i`. -/
def fillLoop : Nat → Nat → List Nat → Option (List Nat)
  | 0, _, s => some s
  | k + 1, i, s => do
    let s' ← stepWrite s i
    fillLoop k (i + 1) s'

/-- `get_fibovar_seq(a, b, c, num)`: allocate `vec![0; num]`, write the three
seeds at indices 0, 1, 2 (panicking — `none` — when `num < 3`), then run the
recurrence loop for `i in 3..num`. -/
def get_fibovar_seq (a b c : Nat) (num : Nat) : Option (List Nat) := do
  let s0 := List.replicate num 0
  let s1 ← setAt s0 0 a
  let s2 ← setAt s1 1 b
  let s3 ← setAt s2 2 c
  fillLoop (num - 3) 3 s3

/-! ### Closed forms for the rolling window of handles

`synthLoop k j b c d` threads a rolling window of three handles.  Seen from the
entry of region `j` with window `(b, c, d)`, the handle holding the `m`-th term
of the extended window sits at `hCell … m` and carries value `hVal … m`. -/

/-- Cell of the `m`-th window term: `0`, `1`, `2` are the entry handles; term
`m + 3` is the `d` cell produced by region `j + m`. -/
def hCell (b c d : Cell) (j : Nat) : Nat → Cell
  | 0 => b
  | 1 => c
  | 2 => d
  | m + 3 => ⟨j + m, Col.d, 0⟩

/-- Value of the `m`-th window term; term `m + 3` is computed by `load_row` as
`b * (a + c)` of the three previous terms. -/
def hVal {F : Type} [Add F] [Mul F] (b c d : Value F) : Nat → Value F
  | 0 => b
  | 1 => c
  | 2 => d
  | m + 3 =>
    Value.mul (hVal b c d (m + 1)) (Value.add (hVal b c d m) (hVal b c d (m + 2)))

/-- The value of the four columns of a `load_row` region whose entry window has
values `(b, c, d)` shifted by `m` window steps. -/
def colVal {F : Type} [Add F] [Mul F] (b c d : Value F) (m : Nat) : Col → Value F
  | Col.a => hVal b c d m
  | Col.b => hVal b c d (m + 1)
  | Col.c => hVal b c d (m + 2)
  | Col.d => hVal b c d (m + 3)

theorem hVal_succ3 {F : Type} [Add F] [Mul F] (b c d : Value F) (m : Nat) :
    hVal b c d (m + 3) =
      Value.mul (hVal b c d (m + 1)) (Value.add (hVal b c d m) (hVal b c d (m + 2))) := by
  simp only [hVal]

theorem hCell_shift (b c d : Cell) (j : Nat) :
    (m : Nat) → hCell c d ⟨j, Col.d, 0⟩ (j + 1) m = hCell b c d j (m + 1)
  | 0 => rfl
  | 1 => rfl
  | 2 => by simp [hCell]
  | m + 3 => by
    show (⟨j + 1 + m, Col.d, 0⟩ : Cell) = ⟨j + (m + 1), Col.d, 0⟩
    rw [show j + 1 + m = j + (m + 1) from by omega]

theorem hVal_shift {F : Type} [Add F] [Mul F] (b c d : Value F) :
    (m : Nat) → hVal c d (hVal b c d 3) m = hVal b c d (m + 1)
  | 0 => rfl
  | 1 => rfl
  | 2 => rfl
  | m + 3 => by
    have h0 := hVal_shift b c d m
    have h1 := hVal_shift b c d (m + 1)
    have h2 := hVal_shift b c d (m + 2)
    calc hVal c d (hVal b c d 3) (m + 3)
        = Value.mul (hVal c d (hVal b c d 3) (m + 1))
            (Value.add (hVal c d (hVal b c d 3) m)
              (hVal c d (hVal b c d 3) (m + 2))) := rfl
      _ = Value.mul (hVal b c d (m + 2))
            (Value.add (hVal b c d (m + 1)) (hVal b c d (m + 3))) := by
          rw [h0, h1, h2]
      _ = hVal b c d (m + 3 + 1) := rfl

theorem colVal_shift {F : Type} [Add F] [Mul F] (b c d : Value F) (m : Nat)
    (col : Col) :
    colVal c d (hVal b c d 3) m col = colVal b c d (m + 1) col := by
  cases col <;> simp only [colVal, hVal_shift]

theorem load_row_snd {F : Type} [Add F] [Mul F] (j : Nat) (b c d : Number F) :
    (load_row j b c d).2 = ⟨⟨j, Col.d, 0⟩, hVal b.val c.val d.val 3⟩ := by
  simp only [load_row, hVal]

/-- The final handle returned by the loop. -/
theorem synthLoop_snd {F : Type} [Add F] [Mul F] :
    ∀ (k j : Nat) (b c d : Number F),
      (synthLoop k j b c d).2 =
        ⟨hCell b.cell c.cell d.cell j (k + 2), hVal b.val c.val d.val (k + 2)⟩
  | 0, _, _, _, _ => rfl
  | k + 1, j, b, c, d => by
    have ih := synthLoop_snd k (j + 1) c d (load_row j b c d).2
    show (synthLoop k (j + 1) c d (load_row j b c d).2).2 = _
    rw [ih, load_row_snd]
    exact congrArg₂ Number.mk
      (hCell_shift b.cell c.cell d.cell j (k + 2))
      (hVal_shift b.val c.val d.val (k + 2))

theorem synthLoop_countP_enable {F : Type} [Add F] [Mul F] :
    ∀ (k j : Nat) (b c d : Number F),
      ((synthLoop k j b c d).1).countP (isEnableEv) = k
  | 0, _, _, _, _ => rfl
  | k + 1, j, b, c, d => by
    have ih := synthLoop_countP_enable k (j + 1) c d (load_row j b c d).2
    show List.countP isEnableEv
        ((load_row j b c d).1 ++ (synthLoop k (j + 1) c d (load_row j b c d).2).1)
      = k + 1
    rw [List.countP_append, ih]
    simp [load_row, isEnableEv, List.countP_cons]
    omega

theorem synthLoop_countP_copy {F : Type} [Add F] [Mul F] :
    ∀ (k j : Nat) (b c d : Number F),
      ((synthLoop k j b c d).1).countP (isCopyEv) = 3 * k
  | 0, _, _, _, _ => rfl
  | k + 1, j, b, c, d => by
    have ih := synthLoop_countP_copy k (j + 1) c d (load_row j b c d).2
    show List.countP isCopyEv
        ((load_row j b c d).1 ++ (synthLoop k (j + 1) c d (load_row j b c d).2).1)
      = 3 * (k + 1)
    rw [List.countP_append, ih]
    simp [load_row, isCopyEv, List.countP_cons]
    omega

theorem synthLoop_countP_instance {F : Type} [Add F] [Mul F] :
    ∀ (k j : Nat) (b c d : Number F),
      ((synthLoop k j b c d).1).countP (isInstanceEv) = 0
  | 0, _, _, _, _ => rfl
  | k + 1, j, b, c, d => by
    have ih := synthLoop_countP_instance k (j + 1) c d (load_row j b c d).2
    show List.countP isInstanceEv
        ((load_row j b c d).1 ++ (synthLoop k (j + 1) c d (load_row j b c d).2).1)
      = 0
    rw [List.countP_append, ih]
    simp [load_row, isInstanceEv, List.countP_cons]

theorem enable_mem_loop {F : Type} [Add F] [Mul F] :
    ∀ (k j : Nat) (b c d : Number F) (r w : Nat),
      Ev.enableSel r w ∈ (synthLoop k j b c d).1 → w = 0 ∧ j ≤ r ∧ r < j + k
  | 0, _, _, _, _, _, _, h => by simp [synthLoop] at h
  | k + 1, j, b, c, d, r, w, h => by
    simp only [synthLoop, List.mem_append, load_row, List.mem_cons,
      List.not_mem_nil, or_false] at h
    rcases h with h | h
    · rcases h with h | h | h | h | h | h | h | h <;>
        first
        | (injection h with h1 h2; omega)
        | exact absurd h (by simp)
    · have := enable_mem_loop k (j + 1) c d (load_row j b c d).2 r w h
      omega

theorem copy_mem_loop {F : Type} [Add F] [Mul F] :
    ∀ (k j : Nat) (b c d : Number F) (m : Nat), m < k →
      Ev.copyBind (hCell b.cell c.cell d.cell j m) ⟨j + m, Col.a, 0⟩
          ∈ (synthLoop k j b c d).1 ∧
      Ev.copyBind (hCell b.cell c.cell d.cell j (m + 1)) ⟨j + m, Col.b, 0⟩
          ∈ (synthLoop k j b c d).1 ∧
      Ev.copyBind (hCell b.cell c.cell d.cell j (m + 2)) ⟨j + m, Col.c, 0⟩
          ∈ (synthLoop k j b c d).1
  | 0, _, _, _, _, m, hm => absurd hm (by omega)
  | k + 1, j, b, c, d, 0, _ => by
    refine ⟨?_, ?_, ?_⟩ <;>
      simp [synthLoop, load_row, hCell, List.mem_append, List.mem_cons]
  | k + 1, j, b, c, d, m + 1, hm => by
    have ih := copy_mem_loop k (j + 1) c d (load_row j b c d).2 m (by omega)
    rw [load_row_snd] at ih
    have hshift := hCell_shift b.cell c.cell d.cell j
    have hidx : j + 1 + m = j + (m + 1) := by omega
    rw [hshift m, hshift (m + 1), hshift (m + 2), hidx] at ih
    refine ⟨?_, ?_, ?_⟩ <;>
      [exact List.mem_append_right _ ih.1;
       exact List.mem_append_right _ ih.2.1;
       exact List.mem_append_right _ ih.2.2]

/-! ### Assigned values -/

theorem assignedVal_append_some {F : Type} {t1 t2 : List (Ev F)} {cl : Cell}
    {v : Value F} (h : assignedVal t1 cl = some v) :
    assignedVal (t1 ++ t2) cl = some v := by
  induction t1 with
  | nil => simp [assignedVal] at h
  | cons e rest ih =>
    cases e with
    | assign c w =>
      rw [List.cons_append]
      by_cases hc : c = cl
      · simp only [assignedVal, if_pos hc] at h ⊢
        exact h
      · simp only [assignedVal, if_neg hc] at h ⊢
        exact ih h
    | enableSel r w => exact ih h
    | copyBind s tg => exact ih h
    | instanceBind c s => exact ih h

theorem assignedVal_append_none {F : Type} {t1 : List (Ev F)} {cl : Cell}
    (h : assignedVal t1 cl = none) (t2 : List (Ev F)) :
    assignedVal (t1 ++ t2) cl = assignedVal t2 cl := by
  induction t1 with
  | nil => rfl
  | cons e rest ih =>
    cases e with
    | assign c w =>
      rw [List.cons_append]
      by_cases hc : c = cl
      · simp only [assignedVal, if_pos hc] at h
        exact absurd h (Option.some_ne_none w)
      · simp only [assignedVal, if_neg hc] at h ⊢
        exact ih h
    | enableSel r w => exact ih h
    | copyBind s tg => exact ih h
    | instanceBind c s => exact ih h

/-- Witness values of the four columns of the seed row. -/
def colValFR {F : Type} [Add F] [Mul F] (a b c : Value F) : Col → Value F
  | Col.a => a
  | Col.b => b
  | Col.c => c
  | Col.d => Value.mul (Value.add a c) b

theorem load_first_row_assignedVal {F : Type} [Add F] [Mul F]
    (a b c : Value F) (col : Col) :
    assignedVal (load_first_row 0 a b c).1 ⟨0, col, 0⟩ =
      some (colValFR a b c col) := by
  cases col <;> simp [load_first_row, assignedVal, colValFR]

theorem load_first_row_assignedVal_ne {F : Type} [Add F] [Mul F]
    (a b c : Value F) (r : Nat) (col : Col) (w : Nat) (hr : r ≠ 0) :
    assignedVal (load_first_row 0 a b c).1 ⟨r, col, w⟩ = none := by
  simp [load_first_row, assignedVal, Cell.mk.injEq,
    show ¬ ((0 : Nat) = r) from fun hh => hr hh.symm]

theorem load_row_assignedVal {F : Type} [Add F] [Mul F]
    (j : Nat) (b c d : Number F) (col : Col) :
    assignedVal (load_row j b c d).1 ⟨j, col, 0⟩ =
      some (colVal b.val c.val d.val 0 col) := by
  cases col <;> simp [load_row, assignedVal, colVal, hVal]

theorem load_row_assignedVal_ne {F : Type} [Add F] [Mul F]
    (j : Nat) (b c d : Number F) (r : Nat) (col : Col) (w : Nat) (hr : r ≠ j) :
    assignedVal (load_row j b c d).1 ⟨r, col, w⟩ = none := by
  simp [load_row, assignedVal, Cell.mk.injEq,
    show ¬ (j = r) from fun hh => hr hh.symm]

theorem loop_assignedVal {F : Type} [Add F] [Mul F] :
    ∀ (k j : Nat) (b c d : Number F) (m : Nat) (col : Col), m < k →
      assignedVal (synthLoop k j b c d).1 ⟨j + m, col, 0⟩ =
        some (colVal b.val c.val d.val m col)
  | 0, _, _, _, _, m, _, hm => absurd hm (by omega)
  | k + 1, j, b, c, d, 0, col, _ => by
    show assignedVal
        ((load_row j b c d).1 ++ (synthLoop k (j + 1) c d (load_row j b c d).2).1)
        ⟨j + 0, col, 0⟩ = _
    rw [show j + 0 = j from rfl]
    exact assignedVal_append_some (load_row_assignedVal j b c d col)
  | k + 1, j, b, c, d, m + 1, col, hm => by
    show assignedVal
        ((load_row j b c d).1 ++ (synthLoop k (j + 1) c d (load_row j b c d).2).1)
        ⟨j + (m + 1), col, 0⟩ = _
    rw [assignedVal_append_none
      (load_row_assignedVal_ne j b c d (j + (m + 1)) col 0 (by omega)) _]
    rw [show j + (m + 1) = j + 1 + m from by omega]
    have ih := loop_assignedVal k (j + 1) c d (load_row j b c d).2 m col (by omega)
    exact ih.trans (congrArg some (colVal_shift b.val c.val d.val m col))

/-- Every selector activation of the loop happens at row 0 of its region. -/
theorem loop_enable_row {F : Type} [Add F] [Mul F] :
    ∀ (k j : Nat) (b c d : Number F) (r w : Nat),
      Ev.enableSel r w ∈ (synthLoop k j b c d).1 → w = 0
  | k, j, b, c, d, r, w, h => (enable_mem_loop k j b c d r w h).1

/-! ### Shape (witness-independence) -/

theorem synthLoop_shape {F : Type} [Add F] [Mul F] :
    ∀ (k j : Nat) (b c d b' c' d' : Number F),
      b.cell = b'.cell → c.cell = c'.cell → d.cell = d'.cell →
      ((synthLoop k j b c d).1).map Ev.shape = ((synthLoop k j b' c' d').1).map Ev.shape
  | 0, _, _, _, _, _, _, _, _, _, _ => rfl
  | k + 1, j, b, c, d, b', c', d', hb, hc, hd => by
    show ((load_row j b c d).1 ++ (synthLoop k (j + 1) c d (load_row j b c d).2).1).map Ev.shape
      = ((load_row j b' c' d').1 ++ (synthLoop k (j + 1) c' d' (load_row j b' c' d').2).1).map Ev.shape
    rw [List.map_append, List.map_append]
    have hblock : ((load_row j b c d).1).map Ev.shape = ((load_row j b' c' d').1).map Ev.shape := by
      simp [load_row, Ev.shape, hb, hc, hd]
    have hrest := synthLoop_shape k (j + 1) c d (load_row j b c d).2
      c' d' (load_row j b' c' d').2 hc hd (by rw [load_row_snd, load_row_snd])
    rw [hblock, hrest]

/-! ### Copy pairs -/

theorem copyPairs_append {F : Type} (t1 t2 : List (Ev F)) :
    copyPairs (t1 ++ t2) = copyPairs t1 ++ copyPairs t2 :=
  List.filterMap_append t1 t2 _

theorem mem_copyPairs {F : Type} {t : List (Ev F)} {s tg : Cell}
    (h : Ev.copyBind s tg ∈ t) : (s, tg) ∈ copyPairs t :=
  List.mem_filterMap.mpr ⟨Ev.copyBind s tg, h, rfl⟩

theorem copyPairs_load_first_row {F : Type} [Add F] [Mul F] (a b c : Value F) :
    copyPairs (load_first_row 0 a b c).1 = [] := by
  simp [load_first_row, copyPairs]

/-! ### Link to the reference sequence -/

theorem seqF_succ3 {F : Type} [Add F] [Mul F] (a b c : F) (i : Nat) :
    seqF a b c (i + 3) =
      (seqF a b c (i + 2) + seqF a b c i) * seqF a b c (i + 1) := by
  simp only [seqF]

theorem hVal_seqF {F : Type} [CommRing F] (a b c : F) :
    (m : Nat) →
      hVal (Value.known (seqF a b c 1)) (Value.known (seqF a b c 2))
          (Value.known (seqF a b c 3)) m
        = Value.known (seqF a b c (m + 1))
  | 0 => rfl
  | 1 => rfl
  | 2 => rfl
  | m + 3 => by
    have h0 := hVal_seqF a b c m
    have h1 := hVal_seqF a b c (m + 1)
    have h2 := hVal_seqF a b c (m + 2)
    calc hVal (Value.known (seqF a b c 1)) (Value.known (seqF a b c 2))
            (Value.known (seqF a b c 3)) (m + 3)
        = Value.mul
            (hVal (Value.known (seqF a b c 1)) (Value.known (seqF a b c 2))
              (Value.known (seqF a b c 3)) (m + 1))
            (Value.add
              (hVal (Value.known (seqF a b c 1)) (Value.known (seqF a b c 2))
                (Value.known (seqF a b c 3)) m)
              (hVal (Value.known (seqF a b c 1)) (Value.known (seqF a b c 2))
                (Value.known (seqF a b c 3)) (m + 2))) := rfl
      _ = Value.mul (Value.known (seqF a b c (m + 2)))
            (Value.add (Value.known (seqF a b c (m + 1)))
              (Value.known (seqF a b c (m + 3)))) := by rw [h0, h1, h2]
      _ = Value.known (seqF a b c (m + 3 + 1)) := by
          rw [show m + 3 + 1 = (m + 1) + 3 from by omega, seqF_succ3]
          show Value.known (seqF a b c (m + 2) * (seqF a b c (m + 1) + seqF a b c (m + 3)))
            = Value.known ((seqF a b c (m + 3) + seqF a b c (m + 1)) * seqF a b c (m + 2))
          exact congrArg Value.known (by ring)

/-- With known seeds, the `d` value of the seed row is term 3 of the reference
sequence. -/
theorem first_row_d_seqF {F : Type} [CommRing F] (a b c : F) :
    Value.mul (Value.add (Value.known a) (Value.known c)) (Value.known b)
      = Value.known (seqF a b c 3) := by
  show Value.known ((a + c) * b) = Value.known ((c + a) * b)
  exact congrArg Value.known (by ring)

/-- `Value` multiplication is commutative over a commutative ring. -/
theorem vMul_comm {F : Type} [CommRing F] (x y : Value F) :
    Value.mul x y = Value.mul y x := by
  cases x <;> cases y
  · rfl
  · rfl
  · rfl
  · exact congrArg some (mul_comm _ _)

/-! ### Behaviour of `get_fibovar_seq` -/

/-- The recurrence relation between entries of the result vector at index `j`,
exactly as the loop body writes it. -/
def entryRel (l : List Nat) (j : Nat) : Prop :=
  ∃ x y z : Nat, l[j - 1]? = some x ∧ l[j - 3]? = some y ∧ l[j - 2]? = some z ∧
    l[j]? = some ((x + y) % M * z % M)

theorem fillLoop_spec :
    ∀ (k i : Nat) (s : List Nat), 3 ≤ i → i + k = s.length →
      ∃ l : List Nat, fillLoop k i s = some l ∧ l.length = s.length ∧
        (∀ j, j < i → l[j]? = s[j]?) ∧
        (∀ j, i ≤ j → j < i + k → entryRel l j)
  | 0, i, s, _, _ =>
    ⟨s, rfl, rfl, fun _ _ => rfl, fun j h1 h2 => absurd h1 (by omega)⟩
  | k + 1, i, s, h3, hlen => by
    have hi : i < s.length := by omega
    obtain ⟨x, hx⟩ : ∃ x, s[i - 1]? = some x :=
      ⟨_, List.getElem?_eq_getElem (by omega)⟩
    obtain ⟨y, hy⟩ : ∃ y, s[i - 3]? = some y :=
      ⟨_, List.getElem?_eq_getElem (by omega)⟩
    obtain ⟨z, hz⟩ : ∃ z, s[i - 2]? = some z :=
      ⟨_, List.getElem?_eq_getElem (by omega)⟩
    have hstep : stepWrite s i = some (s.set i ((x + y) % M * z % M)) := by
      simp [stepWrite, hx, hy, hz, setAt, if_pos hi]
    have hlen2 : (i + 1) + k = (s.set i ((x + y) % M * z % M)).length := by
      rw [List.length_set]; omega
    obtain ⟨l, hl, hllen, hpre, hrel⟩ :=
      fillLoop_spec k (i + 1) (s.set i ((x + y) % M * z % M)) (by omega) hlen2
    refine ⟨l, ?_, ?_, ?_, ?_⟩
    · show Option.bind (stepWrite s i) (fun s2 => fillLoop k (i + 1) s2) = some l
      rw [hstep]
      exact hl
    · rw [hllen, List.length_set]
    · intro j hj
      rw [hpre j (by omega), List.getElem?_set_ne (by omega)]
    · intro j hj1 hj2
      rcases Nat.eq_or_lt_of_le hj1 with hji | hji
      · subst hji
        refine ⟨x, y, z, ?_, ?_, ?_, ?_⟩
        · rw [hpre (i - 1) (by omega), List.getElem?_set_ne (by omega)]; exact hx
        · rw [hpre (i - 3) (by omega), List.getElem?_set_ne (by omega)]; exact hy
        · rw [hpre (i - 2) (by omega), List.getElem?_set_ne (by omega)]; exact hz
        · rw [hpre i (by omega), List.getElem?_set_self hi]
      · exact hrel j (by omega) (by omega)

theorem get_fibovar_seq_eq (a b c n : Nat) :
    get_fibovar_seq a b c (n + 3) =
      fillLoop n 3 (a :: b :: c :: List.replicate n 0) := by
  simp [get_fibovar_seq, setAt, List.replicate_succ]

theorem get_fibovar_seq_spec (a b c : Nat) (num : Nat) (h : 3 ≤ num) :
    ∃ l : List Nat, get_fibovar_seq a b c num = some l ∧ l.length = num ∧
      l[0]? = some a ∧ l[1]? = some b ∧ l[2]? = some c ∧
      ∀ j, 3 ≤ j → j < num → entryRel l j := by
  obtain ⟨n, rfl⟩ : ∃ n, num = n + 3 := ⟨num - 3, by omega⟩
  have hslen : (a :: b :: c :: List.replicate n 0).length = n + 3 := by simp
  obtain ⟨l, hl, hllen, hpre, hrel⟩ :=
    fillLoop_spec n 3 (a :: b :: c :: List.replicate n 0) (by omega) (by omega)
  refine ⟨l, ?_, by omega, ?_, ?_, ?_, ?_⟩
  · rw [get_fibovar_seq_eq]
    exact hl
  · rw [hpre 0 (by omega)]
    simp
  · rw [hpre 1 (by omega)]
    simp
  · rw [hpre 2 (by omega)]
    simp
  · intro j hj1 hj2
    exact hrel j hj1 (by omega)

theorem get_fibovar_seq_none (a b c : Nat) (num : Nat) (h : num < 3) :
    get_fibovar_seq a b c num = none := by
  interval_cases num <;> rfl

/-! ### Structure of the full synthesis trace -/

theorem synthesize_eq {F : Type} [Add F] [Mul F] (a b c : Value F) (num : Nat) :
    synthesize a b c num =
      ((load_first_row 0 a b c).1
        ++ (synthLoop (num - 4) 1 ⟨⟨0, Col.b, 0⟩, b⟩ ⟨⟨0, Col.c, 0⟩, c⟩
              ⟨⟨0, Col.d, 0⟩, Value.mul (Value.add a c) b⟩).1)
      ++ [Ev.instanceBind (exposedNumber a b c num).cell 0] := rfl

theorem exposedNumber_eq {F : Type} [Add F] [Mul F] (a b c : Value F) (num : Nat) :
    exposedNumber a b c num =
      (synthLoop (num - 4) 1 ⟨⟨0, Col.b, 0⟩, b⟩ ⟨⟨0, Col.c, 0⟩, c⟩
        ⟨⟨0, Col.d, 0⟩, Value.mul (Value.add a c) b⟩).2 := rfl

theorem hCell_exposed :
    ∀ k : Nat, hCell ⟨0, Col.b, 0⟩ ⟨0, Col.c, 0⟩ ⟨0, Col.d, 0⟩ 1 (k + 2) =
      ⟨k, Col.d, 0⟩
  | 0 => rfl
  | k + 1 => by
    show (⟨1 + k, Col.d, 0⟩ : Cell) = ⟨k + 1, Col.d, 0⟩
    rw [Nat.add_comm]

/-- The cell handed to `expose_public` is the `d` cell of the last region. -/
theorem exposedNumber_cell {F : Type} [Add F] [Mul F] (a b c : Value F) (num : Nat) :
    (exposedNumber a b c num).cell = ⟨num - 4, Col.d, 0⟩ := by
  rw [exposedNumber_eq, synthLoop_snd]
  exact hCell_exposed (num - 4)

/-- With known seeds, the exposed value is term `num - 1` of the reference
sequence. -/
theorem exposedNumber_val_known {F : Type} [CommRing F] (a b c : F) (num : Nat)
    (h : 4 ≤ num) :
    (exposedNumber (Value.known a) (Value.known b) (Value.known c) num).val
      = Value.known (seqF a b c (num - 1)) := by
  rw [exposedNumber_eq, synthLoop_snd]
  show hVal (Value.known b) (Value.known c)
      (Value.mul (Value.add (Value.known a) (Value.known c)) (Value.known b))
      (num - 4 + 2)
    = Value.known (seqF a b c (num - 1))
  rw [first_row_d_seqF]
  show hVal (Value.known (seqF a b c 1)) (Value.known (seqF a b c 2))
      (Value.known (seqF a b c 3)) (num - 4 + 2)
    = Value.known (seqF a b c (num - 1))
  rw [hVal_seqF, show num - 4 + 2 + 1 = num - 1 from by omega]

theorem getLast_synthesize {F : Type} [Add F] [Mul F] (a b c : Value F) (num : Nat) :
    (synthesize a b c num).getLast? =
      some (Ev.instanceBind (exposedNumber a b c num).cell 0) := by
  rw [synthesize_eq, List.getLast?_concat]

theorem load_first_row_countP_enable {F : Type} [Add F] [Mul F] (a b c : Value F) :
    ((load_first_row 0 a b c).1).countP (isEnableEv) = 1 := by
  simp [load_first_row, isEnableEv, List.countP_cons]

theorem load_first_row_countP_copy {F : Type} [Add F] [Mul F] (a b c : Value F) :
    ((load_first_row 0 a b c).1).countP (isCopyEv) = 0 := by
  simp [load_first_row, isCopyEv, List.countP_cons]

theorem load_first_row_countP_instance {F : Type} [Add F] [Mul F] (a b c : Value F) :
    ((load_first_row 0 a b c).1).countP (isInstanceEv) = 0 := by
  simp [load_first_row, isInstanceEv, List.countP_cons]

/-! ### Claim theorems -/

/-- Claim C1: for every choice of three seed field elements and every `n ≥ 4`,
the value the circuit exposes as its single public output (the final `d`
handle passed to `expose_public`, which is the last event of the trace) equals
`seq[n-1]` of the reference sequence `seq[0]=a, seq[1]=b, seq[2]=c`,
`seq[i] = (seq[i-1] + seq[i-3]) * seq[i-2]`. -/
theorem C1_recurrence_correctness {F : Type} [Field F] (a b c : F) (n : Nat)
    (h : 4 ≤ n) :
    (exposedNumber (Value.known a) (Value.known b) (Value.known c) n).val
        = Value.known (seqF a b c (n - 1)) ∧
    (synthesize (Value.known a) (Value.known b) (Value.known c) n).getLast?
        = some (Ev.instanceBind
            (exposedNumber (Value.known a) (Value.known b) (Value.known c) n).cell
            0) :=
  ⟨exposedNumber_val_known a b c n h,
   getLast_synthesize (Value.known a) (Value.known b) (Value.known c) n⟩

/-- Witness for C1 at seeds `(1, 2, 3)` over `ℚ` and `n = 5`: the exposed
value is `seq[4] = 30`. -/
theorem C1_witness :
    (exposedNumber (Value.known (1 : ℚ)) (Value.known 2) (Value.known 3) 5).val
      = Value.known 30 := by
  have h := (C1_recurrence_correctness (1 : ℚ) 2 3 5 (by norm_num)).1
  rw [h]
  norm_num [seqF, Value.known]

/-- Claim C4 counterexample: at `n = 4` the synthesis trace contains exactly
one region (the seed region, which already produces the first derived term),
not `n - 2 = 2` regions as the claim's "one region per derived term plus the
seed region" accounting asserts. -/
theorem C4_counterexample :
    numRegions (synthesize (Value.known (1 : Int)) (Value.known 2)
        (Value.known 3) 4) = 1 ∧
    ¬ (numRegions (synthesize (Value.known (1 : Int)) (Value.known 2)
        (Value.known 3) 4) = 4 - 2) := by
  constructor
  · decide
  · decide

/-- Claim C4 (amended): for every `n ≥ 4`, synthesis allocates one region per
loop-derived term plus the seed region — `n - 3` regions in total — so the
external layout must provide at least `n - 3` usable rows. -/
theorem C4_amended_region_count {F : Type} [Field F] (a b c : Value F) (n : Nat)
    (h : 4 ≤ n) :
    numRegions (synthesize a b c n) = n - 3 := by
  show (synthesize a b c n).countP isEnableEv = n - 3
  rw [synthesize_eq, List.countP_append, List.countP_append,
    synthLoop_countP_enable, load_first_row_countP_enable]
  simp [isEnableEv, List.countP_cons]
  omega

/-- Witness for the amended C4 at `n = 5` over `ℚ`. -/
theorem C4_amended_witness :
    numRegions (synthesize (Value.known (1 : ℚ)) (Value.known 2)
      (Value.known 3) 5) = 5 - 3 :=
  C4_amended_region_count (Value.known (1 : ℚ)) (Value.known 2)
    (Value.known 3) 5 (by norm_num)

/-- Claim C6: for every `n ≥ 4` the driver performs exactly one
`load_first_row` (the trace starts with its five events), exactly `n - 4`
`load_row` iterations (`n - 3` selector activations in total and three copy
constraints per iteration), and exactly one public exposure, which is the last
event, at instance slot 0, of the `d` cell of the last region (`⟨n-4, d, 0⟩`;
for `n = 4` this is the seed region's `d`). -/
theorem C6_driver_schedule {F : Type} [Field F] (a b c : Value F) (n : Nat)
    (h : 4 ≤ n) :
    (synthesize a b c n).take 5 = (load_first_row 0 a b c).1 ∧
    (synthesize a b c n).countP isEnableEv = n - 3 ∧
    (synthesize a b c n).countP isCopyEv = 3 * (n - 4) ∧
    (synthesize a b c n).countP isInstanceEv = 1 ∧
    (synthesize a b c n).getLast? = some (Ev.instanceBind ⟨n - 4, Col.d, 0⟩ 0) := by
  refine ⟨?_, ?_, ?_, ?_, ?_⟩
  · rw [synthesize_eq, List.append_assoc]
    have h5 : ((load_first_row 0 a b c).1).length = 5 := rfl
    rw [← h5, List.take_left]
  · rw [synthesize_eq, List.countP_append, List.countP_append,
      synthLoop_countP_enable, load_first_row_countP_enable]
    simp [isEnableEv, List.countP_cons]
    omega
  · rw [synthesize_eq, List.countP_append, List.countP_append,
      synthLoop_countP_copy, load_first_row_countP_copy]
    simp [isCopyEv, List.countP_cons]
  · rw [synthesize_eq, List.countP_append, List.countP_append,
      synthLoop_countP_instance, load_first_row_countP_instance]
    simp [isInstanceEv, List.countP_cons]
  · rw [getLast_synthesize, exposedNumber_cell]

/-- Witness for C6 at `n = 4` over `ℚ`: zero loop iterations and the seed
region's `d` is exposed. -/
theorem C6_witness :
    (4 ≤ 4) ∧
    (synthesize (Value.known (1 : ℚ)) (Value.known 2) (Value.known 3) 4).getLast?
      = some (Ev.instanceBind ⟨0, Col.d, 0⟩ 0) :=
  ⟨by norm_num,
   (C6_driver_schedule (Value.known (1 : ℚ)) (Value.known 2) (Value.known 3) 4
      (by norm_num)).2.2.2.2⟩

/-- Claim C8: synthesis is data-independent — for a fixed `n`, the traces of
two runs with any two triples of seed values (known or unknown) have the same
image under `Ev.shape`: the same regions, assignment cells, selector
activations, equality bindings, and public exposure, in the same order. -/
theorem C8_data_independence {F : Type} [Field F] (a b c a2 b2 c2 : Value F)
    (n : Nat) :
    (synthesize a b c n).map Ev.shape = (synthesize a2 b2 c2 n).map Ev.shape := by
  rw [synthesize_eq a b c n, synthesize_eq a2 b2 c2 n]
  rw [List.map_append, List.map_append, List.map_append, List.map_append]
  have h1 : ((load_first_row 0 a b c).1).map Ev.shape
      = ((load_first_row 0 a2 b2 c2).1).map Ev.shape := by
    simp [load_first_row, Ev.shape]
  have h2 := synthLoop_shape (n - 4) 1
    ⟨⟨0, Col.b, 0⟩, b⟩ ⟨⟨0, Col.c, 0⟩, c⟩
    ⟨⟨0, Col.d, 0⟩, Value.mul (Value.add a c) b⟩
    ⟨⟨0, Col.b, 0⟩, b2⟩ ⟨⟨0, Col.c, 0⟩, c2⟩
    ⟨⟨0, Col.d, 0⟩, Value.mul (Value.add a2 c2) b2⟩ rfl rfl rfl
  have h3 : (exposedNumber a b c n).cell = (exposedNumber a2 b2 c2 n).cell := by
    rw [exposedNumber_cell, exposedNumber_cell]
  rw [h1, h2, h3]

/-- Claim C9: for `num < 4` (including `num = 0`) synthesis performs exactly
the same trace as `num = 4`: the seed row is assigned, the loop body runs zero
times, and the seed region's `d = (a + c) * b` is exposed as the public
output. -/
theorem C9_small_num {F : Type} [Field F] (a b c : Value F) (m : Nat)
    (hm : m < 4) :
    synthesize a b c m = synthesize a b c 4 ∧
    (exposedNumber a b c m).val = Value.mul (Value.add a c) b ∧
    (exposedNumber a b c m).cell = ⟨0, Col.d, 0⟩ := by
  have h4 : m - 4 = 4 - 4 := by omega
  refine ⟨?_, ?_, ?_⟩
  · rw [synthesize_eq a b c m, synthesize_eq a b c 4,
      exposedNumber_cell, exposedNumber_cell, h4]
  · rw [exposedNumber_eq, synthLoop_snd, h4]
    rfl
  · rw [exposedNumber_cell, show m - 4 = 0 from by omega]

/-- Witness for C9 at `num = 0` over `ℚ`: the trace equals the `num = 4`
trace. -/
theorem C9_witness :
    (0 < 4) ∧
    synthesize (Value.known (1 : ℚ)) (Value.known 2) (Value.known 3) 0
      = synthesize (Value.known (1 : ℚ)) (Value.known 2) (Value.known 3) 4 :=
  ⟨by norm_num,
   (C9_small_num (Value.known (1 : ℚ)) (Value.known 2) (Value.known 3) 0
      (by norm_num)).1⟩

/-- Claim C7: `get_fibovar_seq a b c num` returns a vector of length `num`
whose first three entries are `a`, `b`, `c` and whose entry at every index
`3 ≤ i < num` equals `(seq[i-1] + seq[i-3]) * seq[i-2]` in `u64` (wrap-around
mod `2^64`) arithmetic; in particular for seeds `(1,2,3)` and `num = 5` it
returns `[1, 2, 3, 8, 30]`. -/
theorem C7_reference_computation (a b c num : Nat) (h : 3 ≤ num) :
    (∃ l : List Nat, get_fibovar_seq a b c num = some l ∧ l.length = num ∧
      l[0]? = some a ∧ l[1]? = some b ∧ l[2]? = some c ∧
      ∀ i, 3 ≤ i → i < num → ∃ x y z : Nat,
        l[i - 1]? = some x ∧ l[i - 3]? = some y ∧ l[i - 2]? = some z ∧
        l[i]? = some ((x + y) * z % M)) ∧
    get_fibovar_seq 1 2 3 5 = some [1, 2, 3, 8, 30] := by
  constructor
  · obtain ⟨l, h1, h2, h3, h4, h5, h6⟩ := get_fibovar_seq_spec a b c num h
    refine ⟨l, h1, h2, h3, h4, h5, ?_⟩
    intro i hi1 hi2
    obtain ⟨x, y, z, hx, hy, hz, hv⟩ := h6 i hi1 hi2
    refine ⟨x, y, z, hx, hy, hz, ?_⟩
    rw [hv]
    exact congrArg some Nat.mod_mul_mod
  · rfl

/-- Witness for C7: the concrete run at seeds `(1,2,3)`, `num = 5`. -/
theorem C7_witness : get_fibovar_seq 1 2 3 5 = some [1, 2, 3, 8, 30] :=
  (C7_reference_computation 1 2 3 5 (by norm_num)).2

/-- Claim C10: `get_fibovar_seq` panics (out-of-bounds index, modelled as
`none`) exactly for `num < 3`; for `num ≥ 3` every index is in bounds and a
vector is returned. -/
theorem C10_oob_exactly_below_three (a b c num : Nat) :
    get_fibovar_seq a b c num = none ↔ num < 3 := by
  constructor
  · intro h
    by_contra hge
    obtain ⟨l, hl, _⟩ := get_fibovar_seq_spec a b c num (by omega)
    rw [hl] at h
    exact absurd h (by simp)
  · exact get_fibovar_seq_none a b c num

/-- Claim C2 (code bug witness): `without_witnesses` returns `Self::default()`
whose `num` is `0`, so for the witnessed instance `(1, 2, 3, num = 5)` the
shape-only trace differs structurally from the witnessed trace (one region and
no copy constraints versus two regions and three copy constraints). -/
theorem C2_code_bug :
    ((FiboCircuit.without_witnesses
        (⟨Value.known (1 : Int), Value.known 2, Value.known 3, 5⟩ :
          FiboCircuit Int)).synthesize).map Ev.shape
      ≠ ((⟨Value.known (1 : Int), Value.known 2, Value.known 3, 5⟩ :
          FiboCircuit Int).synthesize).map Ev.shape := by
  decide

/-! ### Selector membership and the gate relation -/

theorem enable_mem_synthesize {F : Type} [Add F] [Mul F] {a b c : Value F}
    {n r w : Nat} (h : Ev.enableSel r w ∈ synthesize a b c n) :
    w = 0 ∧ (r = 0 ∨ (1 ≤ r ∧ r < 1 + (n - 4))) := by
  rw [synthesize_eq] at h
  rcases List.mem_append.mp h with h1 | h2
  · rcases List.mem_append.mp h1 with hfr | hlp
    · simp [load_first_row] at hfr
      exact ⟨hfr.2, Or.inl hfr.1⟩
    · have hm := enable_mem_loop (n - 4) 1 _ _ _ r w hlp
      exact ⟨hm.1, Or.inr ⟨hm.2.1, hm.2.2⟩⟩
  · simp at h2

theorem gate_from_eq {F : Type} [Field F] {va vb vc vd : Value F}
    (hv : vd = Value.mul (Value.add va vc) vb) :
    ∀ x y z u : F, va = Value.known x → vb = Value.known y →
      vc = Value.known z → vd = Value.known u → gateExpr 1 x y z u = 0 := by
  intro x y z u hx hy hz hu
  subst hx; subst hy; subst hz
  rw [hv] at hu
  have heq : (x + z) * y = u := by
    simpa [Value.mul, Value.add, Value.known, Option.map₂] using hu
  simp [gateExpr, heq]

/-- Claim C3: for every row assigned during synthesis, whenever the row's
selector is enabled, the four assigned column values satisfy the single gate
relation declared by `configure`: the `d` value is exactly `(a + c) * b` of
the row's other three columns (at the `Value` level, so that it also covers
shape-only synthesis), and hence on known values the gate polynomial
`s * ((a + c) * b - d)` vanishes with the selector at 1. -/
theorem C3_gate_relation {F : Type} [Field F] (a b c : Value F) (n r w : Nat)
    (h : Ev.enableSel r w ∈ synthesize a b c n) :
    ∃ va vb vc vd : Value F,
      assignedVal (synthesize a b c n) ⟨r, Col.a, 0⟩ = some va ∧
      assignedVal (synthesize a b c n) ⟨r, Col.b, 0⟩ = some vb ∧
      assignedVal (synthesize a b c n) ⟨r, Col.c, 0⟩ = some vc ∧
      assignedVal (synthesize a b c n) ⟨r, Col.d, 0⟩ = some vd ∧
      vd = Value.mul (Value.add va vc) vb ∧
      ∀ x y z u : F, va = Value.known x → vb = Value.known y →
        vc = Value.known z → vd = Value.known u → gateExpr 1 x y z u = 0 := by
  rcases (enable_mem_synthesize h).2 with hr | hr
  · subst hr
    refine ⟨a, b, c, Value.mul (Value.add a c) b, ?_, ?_, ?_, ?_, rfl,
      gate_from_eq rfl⟩ <;>
    · rw [synthesize_eq]
      exact assignedVal_append_some (assignedVal_append_some
        (load_first_row_assignedVal a b c _))
  · obtain ⟨hr1, hr2⟩ := hr
    obtain ⟨m, rfl⟩ : ∃ m, r = 1 + m := ⟨r - 1, by omega⟩
    have hm : m < n - 4 := by omega
    have key : ∀ col : Col,
        assignedVal (synthesize a b c n) ⟨1 + m, col, 0⟩ =
          some (colVal b c (Value.mul (Value.add a c) b) m col) := by
      intro col
      rw [synthesize_eq]
      refine assignedVal_append_some ?_
      rw [assignedVal_append_none
        (load_first_row_assignedVal_ne a b c (1 + m) col 0 (by omega)) _]
      exact loop_assignedVal (n - 4) 1 ⟨⟨0, Col.b, 0⟩, b⟩ ⟨⟨0, Col.c, 0⟩, c⟩
        ⟨⟨0, Col.d, 0⟩, Value.mul (Value.add a c) b⟩ m col hm
    have hgate : colVal b c (Value.mul (Value.add a c) b) m Col.d =
        Value.mul
          (Value.add (colVal b c (Value.mul (Value.add a c) b) m Col.a)
            (colVal b c (Value.mul (Value.add a c) b) m Col.c))
          (colVal b c (Value.mul (Value.add a c) b) m Col.b) := by
      show hVal b c (Value.mul (Value.add a c) b) (m + 3) = _
      rw [hVal_succ3]
      exact vMul_comm _ _
    exact ⟨_, _, _, _, key Col.a, key Col.b, key Col.c, key Col.d, hgate,
      gate_from_eq hgate⟩

/-- Witness for C3 over `ℚ` with seeds `(1, 2, 3)`, `n = 5`: region 1's
selector is enabled and its columns satisfy the gate. -/
theorem C3_witness :
    (Ev.enableSel 1 0 ∈
      synthesize (Value.known (1 : ℚ)) (Value.known 2) (Value.known 3) 5) ∧
    ∃ va vb vc vd : Value ℚ,
      assignedVal (synthesize (Value.known (1 : ℚ)) (Value.known 2)
        (Value.known 3) 5) ⟨1, Col.a, 0⟩ = some va ∧
      assignedVal (synthesize (Value.known (1 : ℚ)) (Value.known 2)
        (Value.known 3) 5) ⟨1, Col.b, 0⟩ = some vb ∧
      assignedVal (synthesize (Value.known (1 : ℚ)) (Value.known 2)
        (Value.known 3) 5) ⟨1, Col.c, 0⟩ = some vc ∧
      assignedVal (synthesize (Value.known (1 : ℚ)) (Value.known 2)
        (Value.known 3) 5) ⟨1, Col.d, 0⟩ = some vd ∧
      vd = Value.mul (Value.add va vc) vb ∧
      ∀ x y z u : ℚ, va = Value.known x → vb = Value.known y →
        vc = Value.known z → vd = Value.known u → gateExpr 1 x y z u = 0 :=
  ⟨by decide, C3_gate_relation (Value.known (1 : ℚ)) (Value.known 2)
    (Value.known 3) 5 1 0 (by decide)⟩

/-! ### The sliding window of equality bindings -/

theorem copyPair_mem_synthesize {F : Type} [Add F] [Mul F] (a b c : Value F)
    (n m : Nat) (hm : m < n - 4) :
    (hCell ⟨0, Col.b, 0⟩ ⟨0, Col.c, 0⟩ ⟨0, Col.d, 0⟩ 1 m, ⟨1 + m, Col.a, 0⟩)
        ∈ copyPairs (synthesize a b c n) ∧
    (hCell ⟨0, Col.b, 0⟩ ⟨0, Col.c, 0⟩ ⟨0, Col.d, 0⟩ 1 (m + 1), ⟨1 + m, Col.b, 0⟩)
        ∈ copyPairs (synthesize a b c n) ∧
    (hCell ⟨0, Col.b, 0⟩ ⟨0, Col.c, 0⟩ ⟨0, Col.d, 0⟩ 1 (m + 2), ⟨1 + m, Col.c, 0⟩)
        ∈ copyPairs (synthesize a b c n) := by
  have h := copy_mem_loop (n - 4) 1 ⟨⟨0, Col.b, 0⟩, b⟩ ⟨⟨0, Col.c, 0⟩, c⟩
    ⟨⟨0, Col.d, 0⟩, Value.mul (Value.add a c) b⟩ m hm
  rw [synthesize_eq, copyPairs_append, copyPairs_append]
  refine ⟨?_, ?_, ?_⟩
  · exact List.mem_append_left _ (List.mem_append_right _ (mem_copyPairs h.1))
  · exact List.mem_append_left _ (List.mem_append_right _ (mem_copyPairs h.2.1))
  · exact List.mem_append_left _ (List.mem_append_right _ (mem_copyPairs h.2.2))

/-- Claim C5: for every `n ≥ 4` and every region `r` created after the first
(`1 ≤ r ≤ n - 4`), that region's first three inputs (columns `a`, `b`, `c`)
are equality-bound — through the recorded copy constraints — to the
immediately previous region's second, third, and fourth terms (columns `b`,
`c`, `d`): the sliding window. -/
theorem C5_sliding_window {F : Type} [Field F] (a b c : Value F) (n r : Nat)
    (hn : 4 ≤ n) (hr1 : 1 ≤ r) (hr2 : r ≤ n - 4) :
    EqBound (synthesize a b c n) ⟨r, Col.a, 0⟩ ⟨r - 1, Col.b, 0⟩ ∧
    EqBound (synthesize a b c n) ⟨r, Col.b, 0⟩ ⟨r - 1, Col.c, 0⟩ ∧
    EqBound (synthesize a b c n) ⟨r, Col.c, 0⟩ ⟨r - 1, Col.d, 0⟩ := by
  obtain ⟨m, rfl⟩ : ∃ m, r = m + 1 := ⟨r - 1, by omega⟩
  rw [Nat.add_sub_cancel]
  have hm : m < n - 4 := by omega
  obtain ⟨pa, pb, pc⟩ := copyPair_mem_synthesize a b c n m hm
  rw [Nat.add_comm 1 m] at pa pb pc
  cases m with
  | zero =>
    exact ⟨Relation.ReflTransGen.single (Or.inr pa),
      Relation.ReflTransGen.single (Or.inr pb),
      Relation.ReflTransGen.single (Or.inr pc)⟩
  | succ m2 =>
    obtain ⟨qa, qb, qc⟩ := copyPair_mem_synthesize a b c n m2 (by omega)
    rw [Nat.add_comm 1 m2] at qa qb qc
    have hdc : hCell ⟨0, Col.b, 0⟩ ⟨0, Col.c, 0⟩ ⟨0, Col.d, 0⟩ 1 (m2 + 1 + 2)
        = (⟨m2 + 1, Col.d, 0⟩ : Cell) := by
      show (⟨1 + m2, Col.d, 0⟩ : Cell) = ⟨m2 + 1, Col.d, 0⟩
      rw [Nat.add_comm]
    rw [hdc] at pc
    refine ⟨?_, ?_, ?_⟩
    · exact Relation.ReflTransGen.head (Or.inr pa)
        (Relation.ReflTransGen.single (Or.inl qb))
    · exact Relation.ReflTransGen.head (Or.inr pb)
        (Relation.ReflTransGen.single (Or.inl qc))
    · exact Relation.ReflTransGen.single (Or.inr pc)

/-- Witness for C5 over `ℚ` with seeds `(1, 2, 3)`, `n = 6`, region `r = 2`. -/
theorem C5_witness :
    (4 ≤ 6) ∧
    EqBound (synthesize (Value.known (1 : ℚ)) (Value.known 2) (Value.known 3) 6)
      ⟨2, Col.a, 0⟩ ⟨1, Col.b, 0⟩ ∧
    EqBound (synthesize (Value.known (1 : ℚ)) (Value.known 2) (Value.known 3) 6)
      ⟨2, Col.b, 0⟩ ⟨1, Col.c, 0⟩ ∧
    EqBound (synthesize (Value.known (1 : ℚ)) (Value.known 2) (Value.known 3) 6)
      ⟨2, Col.c, 0⟩ ⟨1, Col.d, 0⟩ := by
  have h := C5_sliding_window (Value.known (1 : ℚ)) (Value.known 2)
    (Value.known 3) 6 2 (by norm_num) (by norm_num) (by norm_num)
  exact ⟨by norm_num, h.1, h.2.1, h.2.2⟩

end FiboVariant
